import Mathlib

/-!
Verification of `extract_components_from_text` from
`.github/workflows/gelotech_workers.py`.

The function scans free-form `dumpsys` text with four regular expressions,
normalizes the matched tokens, deduplicates them case-insensitively, groups
them by package (the part left of the first `/`) and sorts each group.

We embed the four Python regexes with a small backtracking engine over an
explicit syntax tree.  Every quantifier occurring in the four patterns
(`*`, `*?`, `+`) ranges over a single-character class, so the set of ways a
quantifier can consume input is the finite set of splits of the maximal run;
the engine enumerates all alternatives in Python's preference order (greedy
quantifiers longest first, lazy quantifiers shortest first, alternations
left first) and `re.findall` is modelled by taking the first alternative at
the leftmost position, then resuming after the consumed text.

Character classes in the patterns are explicit ASCII ranges; `\w` (for the
zero-width `\b` assertion), `\s` and case folding are modelled at ASCII,
which is exact on every character the classes can produce.
-/

namespace GeloTech

/-- Python `\w` word character (ASCII): letters, digits, underscore. -/
def wordChar (c : Char) : Bool := c.isAlpha || c.isDigit || c == '_'

/-- Python character class `[A-Za-z0-9_\.]` (package part). -/
def pkgChar (c : Char) : Bool := c.isAlpha || c.isDigit || c == '_' || c == '.'

/-- Python character class `[A-Za-z0-9_\.$]` (class part, `$` for inner classes). -/
def clsChar (c : Char) : Bool := pkgChar c || c == '$'

/-- Python `\s` whitespace (ASCII). -/
def wsChar (c : Char) : Bool :=
  c == ' ' || c == '\t' || c == '\n' || c == '\r' || c == '\x0b' || c == '\x0c'

/-- Python `[^}]`. -/
def notBrace (c : Char) : Bool := !(c == '\x7d')

/-- Regular expressions as they occur in the four patterns: quantifiers only
over single-character classes, one capture group per pattern. -/
inductive RE where
  | eps
  | cls (p : Char → Bool)
  | wb
  | grp (r : RE)
  | cat (a b : RE)
  | alt (a b : RE)
  | star (p : Char → Bool)
  | starL (p : Char → Bool)
  | plus (p : Char → Bool)

/-- All splits `(u, v)` of the input with `u ++ v = input` and every character
of `u` satisfying `p`, in order of increasing length of `u`. -/
def splitsAll (p : Char → Bool) : List Char → List (List Char × List Char)
  | [] => [([], [])]
  | c :: cs =>
    ([], c :: cs) ::
      (if p c then (splitsAll p cs).map (fun uv => (c :: uv.1, uv.2)) else [])

/-- The character immediately before the current position after consuming
`consumed`, given the character `prev` before the attempt started. -/
def newPrev (consumed : List Char) (prev : Option Char) : Option Char :=
  match consumed.getLast? with
  | some c => some c
  | none => prev

def optWord : Option Char → Bool
  | some c => wordChar c
  | none => false

/-- Python `\b`: exactly one side of the position is a word character
(string edges count as non-word). -/
def atBoundary (prev : Option Char) (cs : List Char) : Bool :=
  optWord prev != optWord cs.head?

/-- Backtracking matcher: all ways `r` can match a prefix of `cs`, each as
`(consumed, captured group, rest)`, in Python's backtracking preference
order (the head of the list is the match Python's engine reports). -/
def mat : RE → Option Char → List Char → List (List Char × Option (List Char) × List Char)
  | .eps, _, cs => [([], none, cs)]
  | .cls _, _, [] => []
  | .cls p, _, c :: cs => if p c then [([c], none, cs)] else []
  | .wb, prev, cs => if atBoundary prev cs then [([], none, cs)] else []
  | .grp r, prev, cs => (mat r prev cs).map (fun x => (x.1, some x.1, x.2.2))
  | .cat a b, prev, cs =>
    (mat a prev cs).flatMap (fun x =>
      (mat b (newPrev x.1 prev) x.2.2).map (fun y =>
        (x.1 ++ y.1, x.2.1 <|> y.2.1, y.2.2)))
  | .alt a b, prev, cs => mat a prev cs ++ mat b prev cs
  | .star p, _, cs => ((splitsAll p cs).reverse).map (fun uv => (uv.1, none, uv.2))
  | .starL p, _, cs => (splitsAll p cs).map (fun uv => (uv.1, none, uv.2))
  | .plus p, _, cs =>
    (((splitsAll p cs).reverse).filter (fun uv => !uv.1.isEmpty)).map
      (fun uv => (uv.1, none, uv.2))

theorem splitsAll_spec (p : Char → Bool) :
    ∀ (cs : List Char) uv, uv ∈ splitsAll p cs → cs = uv.1 ++ uv.2 ∧ ∀ c ∈ uv.1, p c := by
  intro cs
  induction cs with
  | nil =>
    intro uv h
    simp [splitsAll] at h
    subst h
    simp
  | cons c cs ih =>
    intro uv h
    simp only [splitsAll, List.mem_cons] at h
    rcases h with h | h
    · subst h
      simp
    · by_cases hp : p c
      · simp only [hp, if_true, List.mem_map] at h
        obtain ⟨uv0, huv0, heq⟩ := h
        obtain ⟨happ, hall⟩ := ih uv0 huv0
        subst heq
        constructor
        · simp [happ]
        · intro d hd
          rcases List.mem_cons.mp hd with h1 | h1
          · subst h1; exact hp
          · exact hall d h1
      · simp [hp] at h

/-- Every alternative produced by the matcher splits the input as
`consumed ++ rest`. -/
theorem mat_append :
    ∀ (r : RE) (prev : Option Char) (cs : List Char) x,
      x ∈ mat r prev cs → cs = x.1 ++ x.2.2 := by
  intro r
  induction r with
  | eps =>
    intro prev cs x h
    simp [mat] at h
    subst h
    simp
  | cls p =>
    intro prev cs x h
    match cs with
    | [] => simp [mat] at h
    | c :: cs =>
      simp only [mat] at h
      by_cases hp : p c
      · simp [hp] at h
        subst h
        simp
      · simp [hp] at h
  | wb =>
    intro prev cs x h
    by_cases hb : atBoundary prev cs
    · simp [mat, hb] at h
      subst h
      simp
    · simp [mat, hb] at h
  | grp r ih =>
    intro prev cs x h
    simp only [mat, List.mem_map] at h
    obtain ⟨y, hy, heq⟩ := h
    subst heq
    exact ih prev cs y hy
  | cat a b iha ihb =>
    intro prev cs x h
    simp only [mat, List.mem_flatMap, List.mem_map] at h
    obtain ⟨y, hy, z, hz, heq⟩ := h
    subst heq
    have h1 := iha prev cs y hy
    have h2 := ihb (newPrev y.1 prev) y.2.2 z hz
    simp only []
    rw [h1, h2, List.append_assoc]
  | alt a b iha ihb =>
    intro prev cs x h
    rcases List.mem_append.mp h with h | h
    · exact iha prev cs x h
    · exact ihb prev cs x h
  | star p =>
    intro prev cs x h
    simp only [mat, List.mem_map, List.mem_reverse] at h
    obtain ⟨uv, huv, heq⟩ := h
    subst heq
    exact (splitsAll_spec p cs uv huv).1
  | starL p =>
    intro prev cs x h
    simp only [mat, List.mem_map] at h
    obtain ⟨uv, huv, heq⟩ := h
    subst heq
    exact (splitsAll_spec p cs uv huv).1
  | plus p =>
    intro prev cs x h
    simp only [mat, List.mem_map, List.mem_filter, List.mem_reverse] at h
    obtain ⟨uv, ⟨huv, _⟩, heq⟩ := h
    subst heq
    exact (splitsAll_spec p cs uv huv).1

/-- Scanning as in `re.findall`: attempt a match at each position from the left;
on success record the capture (Python returns group 1, substituting the
empty string when the group did not participate) and resume after the whole
match; a zero-width match records and advances one position.  Each step
either consumes at least one input character or advances one position, so
`cs.length + 1` steps always suffice; the recursion is made structural on
an explicit step budget and `scan_budget_irrel` below shows any budget
larger than the input length gives the same result. -/
def scan (f : Nat) (r : RE) (prev : Option Char) (cs : List Char) : List (List Char) :=
  match f with
  | 0 => []
  | f + 1 =>
    match (mat r prev cs).head? with
    | some x =>
      if x.1.isEmpty then
        match cs with
        | [] => [x.2.1.getD []]
        | c :: cs2 => x.2.1.getD [] :: scan f r (some c) cs2
      else
        x.2.1.getD [] :: scan f r (newPrev x.1 prev) x.2.2
    | none =>
      match cs with
      | [] => []
      | c :: cs2 => scan f r (some c) cs2

/-- Python `pattern.findall(text)` for a pattern with one capture group. -/
def reFindall (r : RE) (cs : List Char) : List (List Char) :=
  scan (cs.length + 1) r none cs

/-- The step budget of `scan` is irrelevant as soon as it exceeds the input
length: the recursion never exhausts it. -/
theorem scan_budget_irrel :
    ∀ (f1 f2 : Nat) (r : RE) (prev : Option Char) (cs : List Char),
      cs.length < f1 → cs.length < f2 →
      scan f1 r prev cs = scan f2 r prev cs := by
  intro f1
  induction f1 with
  | zero => intro f2 r prev cs h1; omega
  | succ f1 ih =>
    intro f2 r prev cs h1 h2
    match f2 with
    | 0 => omega
    | f2 + 1 =>
      cases hm : (mat r prev cs).head? with
      | none =>
        cases cs with
        | nil => simp [scan, hm]
        | cons c cs2 =>
          simp only [scan, hm]
          have hl : cs2.length < f1 := by simp at h1; omega
          have hl2 : cs2.length < f2 := by simp at h2; omega
          exact ih f2 r (some c) cs2 hl hl2
      | some x =>
        have hmem : x ∈ mat r prev cs := List.mem_of_mem_head? hm
        have happ := mat_append r prev cs x hmem
        by_cases hx : x.1.isEmpty
        · cases cs with
          | nil => simp [scan, hm, hx]
          | cons c cs2 =>
            simp only [scan, hm, hx, if_true]
            have hl : cs2.length < f1 := by simp at h1; omega
            have hl2 : cs2.length < f2 := by simp at h2; omega
            rw [ih f2 r (some c) cs2 hl hl2]
        · simp only [scan, hm, if_neg hx]
          have hx1 : x.1 ≠ [] := fun hnil => hx (by rw [hnil]; rfl)
          have hlen : x.2.2.length < cs.length := by
            rw [happ]
            simp only [List.length_append]
            have : 0 < x.1.length := List.length_pos.mpr hx1
            omega
          rw [ih f2 r (newPrev x.1 prev) x.2.2 (by omega) (by omega)]

/-- Single-character literal. -/
def chrRE (c : Char) : RE := .cls (fun d => d == c)

/-- Single-character literal under `re.IGNORECASE` (ASCII case folding). -/
def chrCI (c : Char) : RE := .cls (fun d => d.toLower == c.toLower)

/-- Case-insensitive literal string. -/
def litCI : List Char → RE
  | [] => .eps
  | c :: cs => .cat (chrCI c) (litCI cs)

/-- The shared capture group
`([A-Za-z0-9_\.]+/(?:\.[A-Za-z0-9_\.$]+|[A-Za-z0-9_\.$]+))` of patterns
A, B and C (`re.IGNORECASE` on pattern C does not change these classes,
which already contain both cases). -/
def tokRE : RE :=
  .cat (.plus pkgChar)
    (.cat (chrRE '/')
      (.alt (.cat (chrRE '.') (.plus clsChar)) (.plus clsChar)))

/-- Pattern A:
`\b([A-Za-z0-9_\.]+/(?:\.[A-Za-z0-9_\.$]+|[A-Za-z0-9_\.$]+))\b`. -/
def pat_a : RE := .cat .wb (.cat (.grp tokRE) .wb)

/-- Pattern B:
`\{[^}]*?\b([A-Za-z0-9_\.]+/(?:\.[A-Za-z0-9_\.$]+|[A-Za-z0-9_\.$]+))\b[^}]*\}`. -/
def pat_b : RE :=
  .cat (chrRE '\x7b')
    (.cat (.starL notBrace)
      (.cat .wb
        (.cat (.grp tokRE)
          (.cat .wb (.cat (.star notBrace) (chrRE '\x7d'))))))

/-- Pattern C:
`(?:ComponentInfo:|service=|service_name=)\s*([A-Za-z0-9_\.]+/(?:\.[A-Za-z0-9_\.$]+|[A-Za-z0-9_\.$]+))`
with `re.IGNORECASE`. -/
def pat_c : RE :=
  .cat
    (.alt (litCI "ComponentInfo:".toList)
      (.alt (litCI "service=".toList) (litCI "service_name=".toList)))
    (.cat (.star wsChar) (.grp tokRE))

/-- The capture group `([A-Za-z0-9_\.]+/[A-Za-z0-9_\.$]+)` of pattern D. -/
def tokD : RE := .cat (.plus pkgChar) (.cat (chrRE '/') (.plus clsChar))

/-- Pattern D (fallback): `\b([A-Za-z0-9_\.]+/[A-Za-z0-9_\.$]+)\b`. -/
def pat_d : RE := .cat .wb (.cat (.grp tokD) .wb)

/-- Python `str.strip()` (ASCII whitespace). -/
def stripWs (l : List Char) : List Char :=
  ((l.dropWhile wsChar).reverse.dropWhile wsChar).reverse

/-- Python `token.rstrip(';,)')`. -/
def rstripPunct (l : List Char) : List Char :=
  (l.reverse.dropWhile (fun c => c == ';' || c == ',' || c == ')')).reverse

/-- Python `re.sub(r':[0-9]+$', '', tok)`: remove a trailing colon followed
by one or more digits, when present. -/
def stripPid (l : List Char) : List Char :=
  let r := l.reverse
  if (r.takeWhile (fun c => c.isDigit)).isEmpty then l
  else
    match r.dropWhile (fun c => c.isDigit) with
    | c :: rest => if c = ':' then rest.reverse else l
    | [] => l

/-- Python `'/' in token`. -/
def hasSlash (l : List Char) : Bool := l.any (fun c => c == '/')

/-- Python `tok.split('/', 1)[0]`. -/
def beforeSlash (l : List Char) : List Char := l.takeWhile (fun c => !(c == '/'))

/-- Python `tok.split('/', 1)[1]`, `none` when the list index would not
exist because there is no `/`. -/
def afterSlash? (l : List Char) : Option (List Char) :=
  match l.dropWhile (fun c => !(c == '/')) with
  | _ :: r => some r
  | [] => none

/-- Python `tok.lower()` (ASCII; exact on every character the patterns can
produce). -/
def lowerStr (l : List Char) : List Char := l.map Char.toLower

/-- The raw capture strings of the four `findall` scans, in the order the
source iterates the patterns. -/
def rawCandidates (cs : List Char) : List (List Char) :=
  reFindall pat_a cs ++ reFindall pat_b cs ++ reFindall pat_c cs ++ reFindall pat_d cs

/-- The first loop of the source: skip empty captures, `strip()` then
`rstrip(';,)')` each capture, keep those containing a `/`. -/
def stepTwo (gs : List (List Char)) : List (List Char) :=
  gs.filterMap (fun m =>
    if m.isEmpty then none
    else
      let token := rstripPunct (stripWs m)
      if hasSlash token then some token else none)

/-- The `matches` list of the source. -/
def matchesOf (cs : List Char) : List (List Char) := stepTwo (rawCandidates cs)

/-- The cleanup loop of the source, translated faithfully: the list
indexing `tok.split('/', 1)[1]` is fallible in Python, so the translation
returns `Except`, erring exactly where Python would raise `IndexError`. -/
def cleanTokensE (seen : List (List Char)) :
    List (List Char) → Except String (List (List Char))
  | [] => .ok []
  | tok0 :: rest =>
    let tok := stripWs (stripPid tok0)
    if tok.isEmpty || !hasSlash tok then cleanTokensE seen rest
    else
      match afterSlash? tok with
      | none => .error "IndexError: list index out of range"
      | some right =>
        if !(right.any (fun c => Char.isAlpha c)) then cleanTokensE seen rest
        else
          if lowerStr tok ∈ seen then cleanTokensE seen rest
          else (cleanTokensE (lowerStr tok :: seen) rest).map (fun cl => tok :: cl)

/-- The normalization and filtering part of the cleanup loop, without the
deduplication (used to factor the loop for reasoning; `cleanTokensE` is the
faithful translation and is proved to agree). -/
def normTokens : List (List Char) → List (List Char)
  | [] => []
  | tok0 :: rest =>
    let tok := stripWs (stripPid tok0)
    if tok.isEmpty || !hasSlash tok then normTokens rest
    else
      match afterSlash? tok with
      | none => normTokens rest
      | some right =>
        if !(right.any (fun c => Char.isAlpha c)) then normTokens rest
        else tok :: normTokens rest

/-- First-seen case-insensitive deduplication (the `seen_lower` set of the
source, modelled as the list of lowered keys already taken). -/
def dedupLow (seen : List (List Char)) : List (List Char) → List (List Char)
  | [] => []
  | t :: rest =>
    if lowerStr t ∈ seen then dedupLow seen rest
    else t :: dedupLow (lowerStr t :: seen) rest

/-- The `cleaned` list of the source. -/
def cleanTokens (seen : List (List Char)) (l : List (List Char)) : List (List Char) :=
  dedupLow seen (normTokens l)

/-- One step of `mapping.setdefault(pkg, []).append(tok)` over an
insertion-ordered association list. -/
def addTok (m : List (List Char × List (List Char))) (tok : List Char) :
    List (List Char × List (List Char)) :=
  match m with
  | [] => [(beforeSlash tok, [tok])]
  | (p, ts) :: rest =>
    if p = beforeSlash tok then (p, ts ++ [tok]) :: rest
    else (p, ts) :: addTok rest tok

/-- Grouping loop of the source. -/
def groupByPkg (l : List (List Char)) : List (List Char × List (List Char)) :=
  l.foldl addTok []

/-- Python string `<=` on code points (used by `sorted`). -/
def pyLe : List Char → List Char → Bool
  | [], _ => true
  | _ :: _, [] => false
  | a :: xs, b :: ys => if a < b then true else if b < a then false else pyLe xs ys

/-- Insert `x` into a `pyLe`-sorted list, after every element `≤` it (the
placement a stable sort gives an element arriving later). -/
def insertPy (x : List Char) : List (List Char) → List (List Char)
  | [] => [x]
  | y :: ys => if pyLe y x then y :: insertPy x ys else x :: y :: ys

/-- Python `sorted` on strings: a stable comparison sort by `pyLe`,
realized as insertion sort processing elements in their original order. -/
def sortPy (l : List (List Char)) : List (List Char) :=
  l.foldl (fun acc x => insertPy x acc) []

/-- Final loop of the source: sort each package's component list. -/
def sortStep (m : List (List Char × List (List Char))) :
    List (List Char × List (List Char)) :=
  m.map (fun e => (e.1, sortPy e.2))

/-- Body of `extract_components_from_text` on character lists.  The guard
mirrors `if not dumpsys_text: return {}`. -/
def extractCore (cs : List Char) : List (List Char × List (List Char)) :=
  if cs.isEmpty then []
  else sortStep (groupByPkg (cleanTokens [] (matchesOf cs)))

/-- Variant of `extract_components_from_text` with the fallible list indexing of the
cleanup loop modelled in `Except`. -/
def extractCoreE (cs : List Char) : Except String (List (List Char × List (List Char))) :=
  if cs.isEmpty then .ok []
  else (cleanTokensE [] (matchesOf cs)).map (fun cl => sortStep (groupByPkg cl))

/-- Python `extract_components_from_text(dumpsys_text)`: the mapping
package -> sorted list of component tokens, as an insertion-ordered
association list. -/
def extract_components_from_text (s : String) : List (String × List String) :=
  (extractCore s.toList).map (fun e => (String.mk e.1, e.2.map String.mk))

/-- The same function with the fallible list indexing kept in `Except`. -/
def extract_components_from_textE (s : String) :
    Except String (List (String × List String)) :=
  (extractCoreE s.toList).map (fun m => m.map (fun e => (String.mk e.1, e.2.map String.mk)))

/-- The Python parameter is annotated `str` but the guard
`if not dumpsys_text` also treats an absent (`None`) argument as "no
components"; an absent input is modelled by `Option`. -/
def extract_components_from_text_opt (o : Option String) : List (String × List String) :=
  match o with
  | none => []
  | some s => extract_components_from_text s

/-! ## Language semantics of the embedded regexes -/

/-- The words an embedded regex can consume. -/
def MemRE : RE → List Char → Prop
  | .eps, w => w = []
  | .cls p, w => ∃ c, w = [c] ∧ p c
  | .wb, w => w = []
  | .grp r, w => MemRE r w
  | .cat a b, w => ∃ u v, w = u ++ v ∧ MemRE a u ∧ MemRE b v
  | .alt a b, w => MemRE a w ∨ MemRE b w
  | .star p, w => ∀ c ∈ w, p c
  | .starL p, w => ∀ c ∈ w, p c
  | .plus p, w => w ≠ [] ∧ ∀ c ∈ w, p c

/-- The words some capture group of the regex can capture. -/
def CapP : RE → List Char → Prop
  | .grp r, g => MemRE r g
  | .cat a b, g => CapP a g ∨ CapP b g
  | .alt a b, g => CapP a g ∨ CapP b g
  | _, _ => False

/-- Soundness of the matcher: the consumed word is in the regex's language,
and any reported capture was captured by a group of the regex and is a
contiguous part of the consumed word. -/
theorem mat_sound :
    ∀ (r : RE) (prev : Option Char) (cs : List Char) x, x ∈ mat r prev cs →
      MemRE r x.1 ∧ ∀ g, x.2.1 = some g → CapP r g ∧ g <:+: x.1 := by
  intro r
  induction r with
  | eps =>
    intro prev cs x h
    simp [mat] at h
    subst h
    exact ⟨rfl, by simp⟩
  | cls p =>
    intro prev cs x h
    match cs with
    | [] => simp [mat] at h
    | c :: cs =>
      simp only [mat] at h
      by_cases hp : p c
      · simp [hp] at h
        subst h
        exact ⟨⟨c, rfl, hp⟩, by simp⟩
      · simp [hp] at h
  | wb =>
    intro prev cs x h
    by_cases hb : atBoundary prev cs
    · simp [mat, hb] at h
      subst h
      exact ⟨rfl, by simp⟩
    · simp [mat, hb] at h
  | grp r ih =>
    intro prev cs x h
    simp only [mat, List.mem_map] at h
    obtain ⟨y, hy, heq⟩ := h
    obtain ⟨hmem, _⟩ := ih prev cs y hy
    subst heq
    refine ⟨hmem, ?_⟩
    intro g hg
    simp only [Option.some.injEq] at hg
    subst hg
    exact ⟨hmem, List.infix_refl _⟩
  | cat a b iha ihb =>
    intro prev cs x h
    simp only [mat, List.mem_flatMap, List.mem_map] at h
    obtain ⟨y, hy, z, hz, heq⟩ := h
    obtain ⟨hma, hca⟩ := iha prev cs y hy
    obtain ⟨hmb, hcb⟩ := ihb (newPrev y.1 prev) y.2.2 z hz
    subst heq
    refine ⟨⟨y.1, z.1, rfl, hma, hmb⟩, ?_⟩
    intro g hg
    have hg2 : (y.2.1 <|> z.2.1) = some g := hg
    cases hy1 : y.2.1 with
    | some gy =>
      rw [hy1, Option.some_orElse] at hg2
      obtain ⟨hcap, hinf⟩ := hca g (by rw [hy1, hg2])
      refine ⟨Or.inl hcap, hinf.trans ( List.IsPrefix.isInfix ( List.prefix_append y.1 z.1))⟩
    | none =>
      rw [hy1, Option.none_orElse] at hg2
      obtain ⟨hcap, hinf⟩ := hcb g hg2
      refine ⟨Or.inr hcap, hinf.trans ( List.IsSuffix.isInfix ( List.suffix_append y.1 z.1))⟩
  | alt a b iha ihb =>
    intro prev cs x h
    rcases List.mem_append.mp h with h | h
    · obtain ⟨hm, hc⟩ := iha prev cs x h
      exact ⟨Or.inl hm, fun g hg => ⟨Or.inl (hc g hg).1, (hc g hg).2⟩⟩
    · obtain ⟨hm, hc⟩ := ihb prev cs x h
      exact ⟨Or.inr hm, fun g hg => ⟨Or.inr (hc g hg).1, (hc g hg).2⟩⟩
  | star p =>
    intro prev cs x h
    simp only [mat, List.mem_map, List.mem_reverse] at h
    obtain ⟨uv, huv, heq⟩ := h
    subst heq
    exact ⟨(splitsAll_spec p cs uv huv).2, by simp⟩
  | starL p =>
    intro prev cs x h
    simp only [mat, List.mem_map] at h
    obtain ⟨uv, huv, heq⟩ := h
    subst heq
    exact ⟨(splitsAll_spec p cs uv huv).2, by simp⟩
  | plus p =>
    intro prev cs x h
    simp only [mat, List.mem_map, List.mem_filter, List.mem_reverse] at h
    obtain ⟨uv, ⟨huv, hne⟩, heq⟩ := h
    subst heq
    refine ⟨⟨?_, (splitsAll_spec p cs uv huv).2⟩, by simp⟩
    intro hnil
    rw [hnil] at hne
    simp at hne

/-- Everything `findall` reports is either the empty string (a group that
did not participate) or a word captured by a group of the pattern,
occurring contiguously in the scanned text. -/
theorem scan_caps :
    ∀ (f : Nat) (r : RE) (prev : Option Char) (cs : List Char) g,
      g ∈ scan f r prev cs → g = [] ∨ (CapP r g ∧ g <:+: cs) := by
  intro f
  induction f with
  | zero =>
    intro r prev cs g h
    simp [scan] at h
  | succ f ih =>
    intro r prev cs g h
    cases hm : (mat r prev cs).head? with
    | none =>
      simp only [scan, hm] at h
      cases cs with
      | nil => simp at h
      | cons c cs2 =>
        rcases ih r (some c) cs2 g h with h0 | ⟨hc, hinf⟩
        · exact Or.inl h0
        · exact Or.inr ⟨hc, hinf.trans ( List.IsSuffix.isInfix ( List.suffix_cons c cs2))⟩
    | some x =>
      have hmem : x ∈ mat r prev cs := List.mem_of_mem_head? hm
      have happ := mat_append r prev cs x hmem
      have hsound := mat_sound r prev cs x hmem
      have hhead : ∀ h0 : x.2.1.getD [] = g, g = [] ∨ (CapP r g ∧ g <:+: cs) := by
        intro h0
        cases hx1 : x.2.1 with
        | none =>
          rw [hx1] at h0
          exact Or.inl h0.symm
        | some gx =>
          rw [hx1] at h0
          simp only [Option.getD_some] at h0
          obtain ⟨hcap, hinf⟩ := hsound.2 gx hx1
          rw [← h0]
          refine Or.inr ⟨hcap, hinf.trans ?_⟩
          rw [happ]
          exact List.IsPrefix.isInfix ( List.prefix_append x.1 x.2.2)
      simp only [scan, hm] at h
      by_cases hx : x.1.isEmpty
      · rw [if_pos hx] at h
        cases cs with
        | nil =>
          simp only [List.mem_singleton] at h
          exact hhead h.symm
        | cons c cs2 =>
          rcases List.mem_cons.mp h with h0 | h0
          · exact hhead h0.symm
          · rcases ih r (some c) cs2 g h0 with h1 | ⟨hc, hinf⟩
            · exact Or.inl h1
            · exact Or.inr ⟨hc, hinf.trans ( List.IsSuffix.isInfix ( List.suffix_cons c cs2))⟩
      · rw [if_neg hx] at h
        rcases List.mem_cons.mp h with h0 | h0
        · exact hhead h0.symm
        · rcases ih r (newPrev x.1 prev) x.2.2 g h0 with h1 | ⟨hc, hinf⟩
          · exact Or.inl h1
          · refine Or.inr ⟨hc, hinf.trans ?_⟩
            rw [happ]
            exact List.IsSuffix.isInfix ( List.suffix_append x.1 x.2.2)

/-- A `litCI` literal contains no capture group. -/
theorem capP_litCI : ∀ (s : List Char) (g : List Char), CapP (litCI s) g ↔ False := by
  intro s
  induction s with
  | nil => intro g; simp [litCI, CapP]
  | cons c cs ih => intro g; simp [litCI, CapP, chrCI, ih]

theorem capP_a {g : List Char} (h : CapP pat_a g) : MemRE tokRE g := by
  simpa [pat_a, CapP] using h

theorem capP_b {g : List Char} (h : CapP pat_b g) : MemRE tokRE g := by
  simpa [pat_b, CapP, chrRE] using h

theorem capP_c {g : List Char} (h : CapP pat_c g) : MemRE tokRE g := by
  simpa [pat_c, CapP, capP_litCI] using h

theorem capP_d {g : List Char} (h : CapP pat_d g) : MemRE tokD g := by
  simpa [pat_d, CapP] using h

/-- Shape of every capturable token: a non-empty package part of
`[A-Za-z0-9_\.]` characters, one `/`, and a non-empty class part of
`[A-Za-z0-9_\.$]` characters. -/
def TokShape (g : List Char) : Prop :=
  ∃ u v, g = u ++ '/' :: v ∧ u ≠ [] ∧ v ≠ [] ∧ (∀ c ∈ u, pkgChar c) ∧ ∀ c ∈ v, clsChar c

theorem memTokD_shape {g : List Char} (h : MemRE tokD g) : TokShape g := by
  simp only [tokD, MemRE, chrRE] at h
  obtain ⟨u, v, heq, ⟨hune, hu⟩, s, t, hvst, ⟨c, hsc, hc⟩, hte, ht⟩ := h
  refine ⟨u, t, ?_, hune, hte, hu, ht⟩
  have : c = '/' := by simpa using hc
  subst this
  subst hsc
  subst hvst
  subst heq
  rfl

theorem memTokRE_shape {g : List Char} (h : MemRE tokRE g) : TokShape g := by
  simp only [tokRE, MemRE, chrRE] at h
  obtain ⟨u, v, heq, ⟨hune, hu⟩, s, t, hvst, ⟨c, hsc, hc⟩, halt⟩ := h
  have hc' : c = '/' := by simpa using hc
  subst hc'
  subst hsc
  subst hvst
  subst heq
  rcases halt with ⟨d0, e, hde, ⟨c2, hc2, hc2dot⟩, hene, he⟩ | ⟨htne, ht⟩
  · have hc2' : c2 = '.' := by simpa using hc2dot
    subst hc2'
    subst hc2
    subst hde
    refine ⟨u, '.' :: e, rfl, hune, by simp, hu, ?_⟩
    intro d hd
    rcases List.mem_cons.mp hd with h1 | h1
    · subst h1; decide
    · exact he d h1
  · exact ⟨u, t, rfl, hune, htne, hu, ht⟩

/-! ## Character facts and normalization identities -/

theorem pkgChar_clsChar {c : Char} (h : pkgChar c = true) : clsChar c = true := by
  simp [clsChar, h]

theorem ne_beq_false {c d : Char} (h : c ≠ d) : (c == d) = false := by
  simpa using h

/-- A class character is never one of the characters the class rejects. -/
theorem clsChar_ne {c d : Char} (h : clsChar c = true) (hd : clsChar d = false) : c ≠ d := by
  intro he
  subst he
  rw [h] at hd
  exact Bool.noConfusion hd

theorem clsChar_not_ws {c : Char} (h : clsChar c = true) : wsChar c = false := by
  unfold wsChar
  rw [ne_beq_false (clsChar_ne h (by decide : clsChar ' ' = false)),
    ne_beq_false (clsChar_ne h (by decide : clsChar '\t' = false)),
    ne_beq_false (clsChar_ne h (by decide : clsChar '\n' = false)),
    ne_beq_false (clsChar_ne h (by decide : clsChar '\r' = false)),
    ne_beq_false (clsChar_ne h (by decide : clsChar '\x0b' = false)),
    ne_beq_false (clsChar_ne h (by decide : clsChar '\x0c' = false))]
  rfl

theorem clsChar_not_punct {c : Char} (h : clsChar c = true) :
    (c == ';' || c == ',' || c == ')') = false := by
  rw [ne_beq_false (clsChar_ne h (by decide : clsChar ';' = false)),
    ne_beq_false (clsChar_ne h (by decide : clsChar ',' = false)),
    ne_beq_false (clsChar_ne h (by decide : clsChar ')' = false))]
  rfl

theorem clsChar_ne_colon {c : Char} (h : clsChar c = true) : c ≠ ':' :=
  clsChar_ne h (by decide)

theorem clsChar_ne_slash {c : Char} (h : clsChar c = true) : c ≠ '/' :=
  clsChar_ne h (by decide)

/-- Every character of a `TokShape` token is a class character or the `/`. -/
theorem tokShape_chars {g : List Char} (h : TokShape g) :
    ∀ c ∈ g, clsChar c = true ∨ c = '/' := by
  obtain ⟨u, v, heq, _, _, hu, hv⟩ := h
  subst heq
  intro c hc
  rcases List.mem_append.mp hc with h1 | h1
  · exact Or.inl (pkgChar_clsChar (hu c h1))
  · rcases List.mem_cons.mp h1 with h2 | h2
    · exact Or.inr h2
    · exact Or.inl (hv c h2)

theorem tokShape_count {g : List Char} (h : TokShape g) : g.count '/' = 1 := by
  obtain ⟨u, v, heq, _, _, hu, hv⟩ := h
  subst heq
  rw [List.count_append, List.count_cons_self]
  have hcu : u.count '/' = 0 := by
    rw [List.count_eq_zero]
    intro hmem
    exact clsChar_ne_slash (pkgChar_clsChar (hu '/' hmem)) rfl
  have hcv : v.count '/' = 0 := by
    rw [List.count_eq_zero]
    intro hmem
    exact clsChar_ne_slash (hv '/' hmem) rfl
  omega

theorem dropWhile_all_false {p : Char → Bool} :
    ∀ l : List Char, (∀ c ∈ l, p c = false) → l.dropWhile p = l := by
  intro l h
  cases l with
  | nil => rfl
  | cons c cs =>
    rw [List.dropWhile_cons]
    simp [h c (List.mem_cons_self c cs)]

theorem stripWs_id {g : List Char} (h : ∀ c ∈ g, wsChar c = false) : stripWs g = g := by
  unfold stripWs
  rw [dropWhile_all_false g h]
  rw [dropWhile_all_false g.reverse (fun c hc => h c (List.mem_reverse.mp hc))]
  exact List.reverse_reverse g

theorem rstripPunct_id {g : List Char}
    (h : ∀ c ∈ g, (c == ';' || c == ',' || c == ')') = false) : rstripPunct g = g := by
  unfold rstripPunct
  rw [dropWhile_all_false g.reverse (fun c hc => h c (List.mem_reverse.mp hc))]
  exact List.reverse_reverse g

theorem stripPid_id {g : List Char} (h : (':' : Char) ∉ g) : stripPid g = g := by
  simp only [stripPid]
  by_cases hd : (g.reverse.takeWhile (fun c => c.isDigit)).isEmpty
  · rw [if_pos hd]
  · rw [if_neg hd]
    cases hm : g.reverse.dropWhile (fun c => c.isDigit) with
    | nil => rfl
    | cons c rest =>
      have hc : c ≠ ':' := by
        intro he
        subst he
        have h1 : (':' : Char) ∈ g.reverse.dropWhile (fun c => c.isDigit) := by
          rw [hm]; simp
        exact h (List.mem_reverse.mp ((List.dropWhile_sublist _).subset h1))
      show (if c = ':' then rest.reverse else g) = g
      rw [if_neg hc]

/-- Normalization is the identity on every `TokShape` token. -/
theorem tokShape_norm_id {g : List Char} (h : TokShape g) :
    stripWs g = g ∧ rstripPunct g = g ∧ stripPid g = g := by
  have hch := tokShape_chars h
  refine ⟨stripWs_id ?_, rstripPunct_id ?_, stripPid_id ?_⟩
  · intro c hc
    rcases hch c hc with h1 | h1
    · exact clsChar_not_ws h1
    · subst h1; decide
  · intro c hc
    rcases hch c hc with h1 | h1
    · exact clsChar_not_punct h1
    · subst h1; decide
  · intro hc
    rcases hch ':' hc with h1 | h1
    · exact absurd h1 (by decide)
    · exact absurd h1 (by decide)

theorem takeWhile_all_append {p : Char → Bool} :
    ∀ (u : List Char) (b : Char) (v : List Char),
      (∀ c ∈ u, p c = true) → p b = false → (u ++ b :: v).takeWhile p = u := by
  intro u
  induction u with
  | nil =>
    intro b v _ hb
    simp [List.takeWhile_cons, hb]
  | cons c cs ih =>
    intro b v hu hb
    have hc : p c = true := hu c (List.mem_cons_self c cs)
    simp only [List.cons_append, List.takeWhile_cons, hc, if_true]
    rw [ih b v (fun d hd => hu d (List.mem_cons_of_mem c hd)) hb]

theorem dropWhile_all_append {p : Char → Bool} :
    ∀ (u : List Char) (b : Char) (v : List Char),
      (∀ c ∈ u, p c = true) → p b = false → (u ++ b :: v).dropWhile p = b :: v := by
  intro u
  induction u with
  | nil =>
    intro b v _ hb
    simp [List.dropWhile_cons, hb]
  | cons c cs ih =>
    intro b v hu hb
    have hc : p c = true := hu c (List.mem_cons_self c cs)
    simp only [List.cons_append, List.dropWhile_cons, hc, if_true]
    exact ih b v (fun d hd => hu d (List.mem_cons_of_mem c hd)) hb

theorem tokShape_beforeSlash {g u v : List Char} (heq : g = u ++ '/' :: v)
    (hu : ∀ c ∈ u, pkgChar c = true) : beforeSlash g = u := by
  subst heq
  unfold beforeSlash
  have hall : ∀ c ∈ u, (!(c == '/')) = true := by
    intro c hc
    have := clsChar_ne_slash (pkgChar_clsChar (hu c hc))
    simp [this]
  exact takeWhile_all_append u '/' v hall (by simp)

theorem tokShape_afterSlash {g u v : List Char} (heq : g = u ++ '/' :: v)
    (hu : ∀ c ∈ u, pkgChar c = true) : afterSlash? g = some v := by
  subst heq
  unfold afterSlash?
  have hall : ∀ c ∈ u, (!(c == '/')) = true := by
    intro c hc
    have := clsChar_ne_slash (pkgChar_clsChar (hu c hc))
    simp [this]
  rw [dropWhile_all_append u '/' v hall (by simp)]

theorem tokShape_hasSlash {g : List Char} (h : TokShape g) : hasSlash g = true := by
  obtain ⟨u, v, heq, _, _, _, _⟩ := h
  subst heq
  simp [hasSlash]

theorem hasSlash_afterSlash {l : List Char} (h : hasSlash l = true) :
    ∃ r, afterSlash? l = some r := by
  have hsl : ('/' : Char) ∈ l := by
    simp only [hasSlash, List.any_eq_true, beq_iff_eq] at h
    obtain ⟨c, hc, hceq⟩ := h
    subst hceq
    exact hc
  unfold afterSlash?
  cases hm : l.dropWhile (fun c => !(c == '/')) with
  | nil =>
    exfalso
    rw [List.dropWhile_eq_nil_iff] at hm
    have := hm '/' hsl
    simp at this
  | cons c r => exact ⟨r, rfl⟩

/-! ## Pipeline characterizations -/

/-- Every raw `findall` capture is empty or a well-shaped token occurring
contiguously in the text. -/
theorem rawCandidates_spec {cs m : List Char} (h : m ∈ rawCandidates cs) :
    m = [] ∨ (TokShape m ∧ m <:+: cs) := by
  unfold rawCandidates reFindall at h
  simp only [List.mem_append] at h
  rcases h with ((ha | hb) | hc) | hd
  · rcases scan_caps (cs.length + 1) pat_a none cs m ha with h0 | ⟨hcap, hinf⟩
    · exact Or.inl h0
    · exact Or.inr ⟨memTokRE_shape (capP_a hcap), hinf⟩
  · rcases scan_caps (cs.length + 1) pat_b none cs m hb with h0 | ⟨hcap, hinf⟩
    · exact Or.inl h0
    · exact Or.inr ⟨memTokRE_shape (capP_b hcap), hinf⟩
  · rcases scan_caps (cs.length + 1) pat_c none cs m hc with h0 | ⟨hcap, hinf⟩
    · exact Or.inl h0
    · exact Or.inr ⟨memTokRE_shape (capP_c hcap), hinf⟩
  · rcases scan_caps (cs.length + 1) pat_d none cs m hd with h0 | ⟨hcap, hinf⟩
    · exact Or.inl h0
    · exact Or.inr ⟨memTokD_shape (capP_d hcap), hinf⟩

/-- Every surviving `matches` entry is a well-shaped token occurring
contiguously in the text (normalization was the identity on it). -/
theorem matchesOf_spec {cs t : List Char} (h : t ∈ matchesOf cs) :
    TokShape t ∧ t <:+: cs := by
  unfold matchesOf stepTwo at h
  rw [List.mem_filterMap] at h
  obtain ⟨m, hm, hf⟩ := h
  by_cases hme : m.isEmpty
  · rw [if_pos hme] at hf
    cases hf
  · rw [if_neg hme] at hf
    simp only [] at hf
    by_cases hsl : hasSlash (rstripPunct (stripWs m))
    · rw [if_pos hsl] at hf
      have ht : t = rstripPunct (stripWs m) := by
        injection hf with h1
        exact h1.symm
      rcases rawCandidates_spec hm with h0 | ⟨hshape, hinf⟩
      · exfalso
        subst h0
        exact hme rfl
      · obtain ⟨hws, hpu, _⟩ := tokShape_norm_id hshape
        rw [ht, hws, hpu]
        exact ⟨hshape, hinf⟩
    · rw [if_neg hsl] at hf
      cases hf

/-- Every entry of the normalized candidate list comes from a `matches`
entry and passed the emptiness, slash and letter filters. -/
theorem normTokens_mem {t : List Char} :
    ∀ {ts : List (List Char)}, t ∈ normTokens ts →
      ∃ m ∈ ts, t = stripWs (stripPid m) ∧ t.isEmpty = false ∧ hasSlash t = true ∧
        ∃ r, afterSlash? t = some r ∧ r.any (fun c => Char.isAlpha c) = true := by
  intro ts
  induction ts with
  | nil => intro h; simp [normTokens] at h
  | cons tok0 rest ih =>
    intro h
    have hstep :
        normTokens (tok0 :: rest) =
          if (stripWs (stripPid tok0)).isEmpty || !hasSlash (stripWs (stripPid tok0)) then
            normTokens rest
          else
            match afterSlash? (stripWs (stripPid tok0)) with
            | none => normTokens rest
            | some right =>
              if !(right.any (fun c => Char.isAlpha c)) then normTokens rest
              else stripWs (stripPid tok0) :: normTokens rest := rfl
    rw [hstep] at h
    have hweak :
        t ∈ normTokens rest →
          ∃ m ∈ tok0 :: rest, t = stripWs (stripPid m) ∧ t.isEmpty = false ∧
            hasSlash t = true ∧
            ∃ r, afterSlash? t = some r ∧ r.any (fun c => Char.isAlpha c) = true := by
      intro h0
      obtain ⟨m, hmm, rest'⟩ := ih h0
      exact ⟨m, List.mem_cons_of_mem tok0 hmm, rest'⟩
    by_cases hg : (stripWs (stripPid tok0)).isEmpty || !hasSlash (stripWs (stripPid tok0))
    · rw [if_pos hg] at h
      exact hweak h
    · rw [if_neg hg] at h
      have hg2 : (stripWs (stripPid tok0)).isEmpty = false ∧
          hasSlash (stripWs (stripPid tok0)) = true := by
        constructor
        · by_contra hne
          apply hg
          have : (stripWs (stripPid tok0)).isEmpty = true := by
            revert hne; cases (stripWs (stripPid tok0)).isEmpty <;> simp
          simp [this]
        · by_contra hne
          apply hg
          have : hasSlash (stripWs (stripPid tok0)) = false := by
            revert hne; cases hasSlash (stripWs (stripPid tok0)) <;> simp
          simp [this]
      cases has : afterSlash? (stripWs (stripPid tok0)) with
      | none =>
        rw [has] at h
        exact hweak h
      | some right =>
        rw [has] at h
        have h2 : t ∈
            (if !(right.any (fun c => Char.isAlpha c)) then normTokens rest
             else stripWs (stripPid tok0) :: normTokens rest) := h
        by_cases ha : !(right.any (fun c => Char.isAlpha c))
        · rw [if_pos ha] at h2
          exact hweak h2
        · rw [if_neg ha] at h2
          rcases List.mem_cons.mp h2 with h1 | h1
          · subst h1
            refine ⟨tok0, List.mem_cons_self tok0 rest, rfl, hg2.1, hg2.2, right, has, ?_⟩
            revert ha
            cases right.any (fun c => Char.isAlpha c) <;> simp
          · exact hweak h1

/-- The faithful cleanup loop never reaches the `IndexError` branch and
computes exactly the factored normalize-then-dedup form. -/
theorem cleanTokensE_ok :
    ∀ (l seen : List (List Char)),
      cleanTokensE seen l = .ok (dedupLow seen (normTokens l)) := by
  intro l
  induction l with
  | nil => intro seen; rfl
  | cons tok0 rest ih =>
    intro seen
    have hstepE :
        cleanTokensE seen (tok0 :: rest) =
          if (stripWs (stripPid tok0)).isEmpty || !hasSlash (stripWs (stripPid tok0)) then
            cleanTokensE seen rest
          else
            match afterSlash? (stripWs (stripPid tok0)) with
            | none => .error "IndexError: list index out of range"
            | some right =>
              if !(right.any (fun c => Char.isAlpha c)) then cleanTokensE seen rest
              else
                if lowerStr (stripWs (stripPid tok0)) ∈ seen then cleanTokensE seen rest
                else
                  (cleanTokensE (lowerStr (stripWs (stripPid tok0)) :: seen) rest).map
                    (fun cl => stripWs (stripPid tok0) :: cl) := rfl
    have hstepN :
        normTokens (tok0 :: rest) =
          if (stripWs (stripPid tok0)).isEmpty || !hasSlash (stripWs (stripPid tok0)) then
            normTokens rest
          else
            match afterSlash? (stripWs (stripPid tok0)) with
            | none => normTokens rest
            | some right =>
              if !(right.any (fun c => Char.isAlpha c)) then normTokens rest
              else stripWs (stripPid tok0) :: normTokens rest := rfl
    rw [hstepE, hstepN]
    by_cases hg : (stripWs (stripPid tok0)).isEmpty || !hasSlash (stripWs (stripPid tok0))
    · rw [if_pos hg, if_pos hg, ih]
    · rw [if_neg hg, if_neg hg]
      have hsl : hasSlash (stripWs (stripPid tok0)) = true := by
        by_contra hne
        apply hg
        have : hasSlash (stripWs (stripPid tok0)) = false := by
          revert hne; cases hasSlash (stripWs (stripPid tok0)) <;> simp
        simp [this]
      cases has : afterSlash? (stripWs (stripPid tok0)) with
      | none =>
        exfalso
        obtain ⟨r, hr⟩ := hasSlash_afterSlash hsl
        rw [has] at hr
        cases hr
      | some right =>
        have hE :
            (match (some right : Option (List Char)) with
              | none => (Except.error "IndexError: list index out of range" :
                  Except String (List (List Char)))
              | some right =>
                if !(right.any (fun c => Char.isAlpha c)) then cleanTokensE seen rest
                else
                  if lowerStr (stripWs (stripPid tok0)) ∈ seen then cleanTokensE seen rest
                  else
                    (cleanTokensE (lowerStr (stripWs (stripPid tok0)) :: seen) rest).map
                      (fun cl => stripWs (stripPid tok0) :: cl)) =
            (if !(right.any (fun c => Char.isAlpha c)) then cleanTokensE seen rest
             else
               if lowerStr (stripWs (stripPid tok0)) ∈ seen then cleanTokensE seen rest
               else
                 (cleanTokensE (lowerStr (stripWs (stripPid tok0)) :: seen) rest).map
                   (fun cl => stripWs (stripPid tok0) :: cl)) := rfl
        have hN :
            (match (some right : Option (List Char)) with
              | none => normTokens rest
              | some right =>
                if !(right.any (fun c => Char.isAlpha c)) then normTokens rest
                else stripWs (stripPid tok0) :: normTokens rest) =
            (if !(right.any (fun c => Char.isAlpha c)) then normTokens rest
             else stripWs (stripPid tok0) :: normTokens rest) := rfl
        rw [hE, hN]
        by_cases ha : !(right.any (fun c => Char.isAlpha c))
        · rw [if_pos ha, if_pos ha, ih]
        · rw [if_neg ha, if_neg ha, dedupLow]
          by_cases hk : lowerStr (stripWs (stripPid tok0)) ∈ seen
          · rw [if_pos hk, if_pos hk, ih]
          · rw [if_neg hk, if_neg hk, ih]
            rfl

/-! ## Deduplication lemmas -/

theorem dedupLow_subset :
    ∀ {l seen : List (List Char)} {tk : List Char}, tk ∈ dedupLow seen l → tk ∈ l := by
  intro l
  induction l with
  | nil => intro seen tk h; simp [dedupLow] at h
  | cons u rest ih =>
    intro seen tk h
    rw [dedupLow] at h
    by_cases hk : lowerStr u ∈ seen
    · rw [if_pos hk] at h
      exact List.mem_cons_of_mem u (ih h)
    · rw [if_neg hk] at h
      rcases List.mem_cons.mp h with h1 | h1
      · exact h1 ▸ List.mem_cons_self u rest
      · exact List.mem_cons_of_mem u (ih h1)

/-- A token surviving deduplication has a key not yet seen and is the first
entry of the input carrying its key (the first-seen casing is retained). -/
theorem dedupLow_fresh :
    ∀ (l seen : List (List Char)) (t : List Char), t ∈ dedupLow seen l →
      lowerStr t ∉ seen ∧ l.find? (fun u => lowerStr u == lowerStr t) = some t := by
  intro l
  induction l with
  | nil => intro seen t h; simp [dedupLow] at h
  | cons u rest ih =>
    intro seen t h
    rw [dedupLow] at h
    by_cases hk : lowerStr u ∈ seen
    · rw [if_pos hk] at h
      obtain ⟨hfr, hfind⟩ := ih seen t h
      have hne : ¬((fun u => lowerStr u == lowerStr t) u = true) := by
        intro hx
        have heq : lowerStr u = lowerStr t := by simpa using hx
        exact hfr (heq ▸ hk)
      exact ⟨hfr, by
        rw [@List.find?_cons_of_neg _ (fun u => lowerStr u == lowerStr t) u rest hne]
        exact hfind⟩
    · rw [if_neg hk] at h
      rcases List.mem_cons.mp h with h1 | h1
      · subst h1
        refine ⟨hk, ?_⟩
        rw [@List.find?_cons_of_pos _ (fun u => lowerStr u == lowerStr t) t rest (by simp)]
      · obtain ⟨hfr2, hfind2⟩ := ih (lowerStr u :: seen) t h1
        have hfr : lowerStr t ∉ seen := fun hx => hfr2 (List.mem_cons_of_mem _ hx)
        have hne : ¬((fun u => lowerStr u == lowerStr t) u = true) := by
          intro hx
          have heq : lowerStr u = lowerStr t := by simpa using hx
          exact hfr2 (heq ▸ List.mem_cons_self (lowerStr u) seen)
        exact ⟨hfr, by
          rw [@List.find?_cons_of_neg _ (fun u => lowerStr u == lowerStr t) u rest hne]
          exact hfind2⟩

/-- Deduplicated tokens are pairwise distinct under case-insensitive
comparison. -/
theorem dedupLow_pairwise :
    ∀ (l seen : List (List Char)),
      (dedupLow seen l).Pairwise (fun a b => lowerStr a ≠ lowerStr b) := by
  intro l
  induction l with
  | nil => intro seen; simp [dedupLow]
  | cons u rest ih =>
    intro seen
    rw [dedupLow]
    by_cases hk : lowerStr u ∈ seen
    · rw [if_pos hk]
      exact ih seen
    · rw [if_neg hk]
      refine List.Pairwise.cons ?_ (ih (lowerStr u :: seen))
      intro b hb hcontra
      obtain ⟨hfr2, _⟩ := dedupLow_fresh rest (lowerStr u :: seen) b hb
      exact hfr2 (hcontra ▸ List.mem_cons_self (lowerStr u) seen)

/-! ## Grouping lemmas -/

/-- Each `addTok` step keeps every component list a sublist of the tokens grouped so
far (extended by the new token), with all entries keyed by their package. -/
theorem addTok_inv (tok : List Char) :
    ∀ (m : List (List Char × List (List Char))) (done : List (List Char)),
      (∀ p ts, (p, ts) ∈ m → ts.Sublist done ∧ ∀ t ∈ ts, beforeSlash t = p) →
      ∀ p ts, (p, ts) ∈ addTok m tok →
        ts.Sublist (done ++ [tok]) ∧ ∀ t ∈ ts, beforeSlash t = p := by
  intro m
  induction m with
  | nil =>
    intro done _ p ts h
    simp only [addTok, List.mem_singleton, Prod.mk.injEq] at h
    obtain ⟨hp, hts⟩ := h
    subst hp
    subst hts
    refine ⟨List.sublist_append_right done [tok], ?_⟩
    intro t ht
    rw [List.mem_singleton] at ht
    subst ht
    rfl
  | cons e m ih =>
    intro done hinv p ts h
    obtain ⟨q, qs⟩ := e
    rw [addTok] at h
    by_cases hq : q = beforeSlash tok
    · rw [if_pos hq] at h
      rcases List.mem_cons.mp h with h1 | h1
      · rw [Prod.mk.injEq] at h1
        obtain ⟨hp, hts⟩ := h1
        subst hp
        subst hts
        obtain ⟨hsub, hkeys⟩ := hinv p qs (List.mem_cons_self _ m)
        refine ⟨hsub.append (List.Sublist.refl [tok]), ?_⟩
        intro t ht
        rcases List.mem_append.mp ht with h2 | h2
        · exact hkeys t h2
        · rw [List.mem_singleton] at h2
          subst h2
          exact hq.symm
      · obtain ⟨hsub, hkeys⟩ := hinv p ts (List.mem_cons_of_mem _ h1)
        exact ⟨hsub.trans (List.sublist_append_left done [tok]), hkeys⟩
    · rw [if_neg hq] at h
      rcases List.mem_cons.mp h with h1 | h1
      · rw [Prod.mk.injEq] at h1
        obtain ⟨hp, hts⟩ := h1
        subst hp
        subst hts
        obtain ⟨hsub, hkeys⟩ := hinv p ts (List.mem_cons_self (p, ts) m)
        exact ⟨hsub.trans (List.sublist_append_left done [tok]), hkeys⟩
      · exact ih done (fun p' ts' hm => hinv p' ts' (List.mem_cons_of_mem _ hm)) p ts h1

/-- Invariant of the grouping fold. -/
theorem groupFold_inv :
    ∀ (l : List (List Char)) (m0 : List (List Char × List (List Char)))
      (done : List (List Char)),
      (∀ p ts, (p, ts) ∈ m0 → ts.Sublist done ∧ ∀ t ∈ ts, beforeSlash t = p) →
      ∀ p ts, (p, ts) ∈ l.foldl addTok m0 →
        ts.Sublist (done ++ l) ∧ ∀ t ∈ ts, beforeSlash t = p := by
  intro l
  induction l with
  | nil =>
    intro m0 done hinv p ts h
    rw [List.foldl_nil] at h
    obtain ⟨hsub, hkeys⟩ := hinv p ts h
    rw [List.append_nil]
    exact ⟨hsub, hkeys⟩
  | cons tok l ih =>
    intro m0 done hinv p ts h
    rw [List.foldl_cons] at h
    have := ih (addTok m0 tok) (done ++ [tok]) (addTok_inv tok m0 done hinv) p ts h
    rw [List.append_assoc] at this
    simpa using this

/-- Every entry of the grouped mapping is a package name together with a
sublist of the grouped tokens, all of which carry that package name. -/
theorem groupByPkg_spec {l : List (List Char)} {p : List Char} {ts : List (List Char)}
    (h : (p, ts) ∈ groupByPkg l) : ts.Sublist l ∧ ∀ t ∈ ts, beforeSlash t = p := by
  have := groupFold_inv l [] [] (by intro p' ts' h'; simp at h') p ts h
  simpa using this

/-! ## Sorting lemmas -/

theorem pyLe_total : ∀ a b : List Char, pyLe a b = true ∨ pyLe b a = true := by
  intro a
  induction a with
  | nil => intro b; exact Or.inl rfl
  | cons x xs ih =>
    intro b
    cases b with
    | nil => exact Or.inr rfl
    | cons y ys =>
      rcases lt_trichotomy x y with hlt | heq | hgt
      · left
        simp only [pyLe]
        rw [if_pos hlt]
      · subst heq
        have hn : ¬x < x := lt_irrefl x
        rcases ih ys with h1 | h1
        · left
          simp only [pyLe]
          rw [if_neg hn, if_neg hn]
          exact h1
        · right
          simp only [pyLe]
          rw [if_neg hn, if_neg hn]
          exact h1
      · right
        simp only [pyLe]
        rw [if_pos hgt]

theorem pyLe_trans :
    ∀ a b c : List Char, pyLe a b = true → pyLe b c = true → pyLe a c = true := by
  intro a
  induction a with
  | nil => intro b c _ _; rfl
  | cons x xs ih =>
    intro b c h1 h2
    cases b with
    | nil => simp [pyLe] at h1
    | cons y ys =>
      cases c with
      | nil => simp [pyLe] at h2
      | cons z zs =>
        simp only [pyLe] at h1 h2 ⊢
        by_cases hxy : x < y
        · rw [if_pos hxy] at h1
          by_cases hyz : y < z
          · rw [if_pos (lt_trans hxy hyz)]
          · by_cases hzy : z < y
            · rw [if_neg hyz, if_pos hzy] at h2
              cases h2
            · have hyzeq : y = z := le_antisymm (not_lt.mp hzy) (not_lt.mp hyz)
              subst hyzeq
              rw [if_pos hxy]
        · by_cases hyx : y < x
          · rw [if_neg hxy, if_pos hyx] at h1
            cases h1
          · have hxyeq : x = y := le_antisymm (not_lt.mp hyx) (not_lt.mp hxy)
            subst hxyeq
            rw [if_neg hxy, if_neg hxy] at h1
            by_cases hyz : x < z
            · rw [if_pos hyz]
            · by_cases hzy : z < x
              · rw [if_neg hyz, if_pos hzy] at h2
                cases h2
              · rw [if_neg hyz, if_neg hzy] at h2 ⊢
                exact ih ys zs h1 h2

theorem perm_insertPy (x : List Char) :
    ∀ l : List (List Char), List.Perm (insertPy x l) (x :: l) := by
  intro l
  induction l with
  | nil => exact List.Perm.refl _
  | cons y ys ih =>
    rw [insertPy]
    by_cases hy : pyLe y x
    · rw [if_pos hy]
      exact (List.Perm.cons y ih).trans (List.Perm.swap x y ys)
    · rw [if_neg hy]

theorem pairwise_insertPy {x : List Char} :
    ∀ {l : List (List Char)}, l.Pairwise (fun a b => pyLe a b = true) →
      (insertPy x l).Pairwise (fun a b => pyLe a b = true) := by
  intro l
  induction l with
  | nil => intro _; simp [insertPy]
  | cons y ys ih =>
    intro h
    rw [List.pairwise_cons] at h
    obtain ⟨hy, hys⟩ := h
    rw [insertPy]
    by_cases hyx : pyLe y x
    · rw [if_pos hyx]
      rw [List.pairwise_cons]
      refine ⟨?_, ih hys⟩
      intro b hb
      rcases List.mem_cons.mp ((perm_insertPy x ys).mem_iff.mp hb) with h1 | h1
      · exact h1 ▸ hyx
      · exact hy b h1
    · rw [if_neg hyx]
      have hxy : pyLe x y = true := by
        rcases pyLe_total x y with h1 | h1
        · exact h1
        · exact absurd h1 hyx
      rw [List.pairwise_cons]
      refine ⟨?_, List.pairwise_cons.mpr ⟨hy, hys⟩⟩
      intro b hb
      rcases List.mem_cons.mp hb with h1 | h1
      · exact h1 ▸ hxy
      · exact pyLe_trans x y b hxy (hy b h1)

theorem sortPy_aux_perm :
    ∀ (l acc : List (List Char)),
      List.Perm (l.foldl (fun acc x => insertPy x acc) acc) (acc ++ l) := by
  intro l
  induction l with
  | nil => intro acc; simp
  | cons x l ih =>
    intro acc
    rw [List.foldl_cons]
    exact ((ih (insertPy x acc)).trans
      ((perm_insertPy x acc).append_right l)).trans List.perm_middle.symm

theorem sortPy_aux_pairwise :
    ∀ (l acc : List (List Char)),
      acc.Pairwise (fun a b => pyLe a b = true) →
      (l.foldl (fun acc x => insertPy x acc) acc).Pairwise (fun a b => pyLe a b = true) := by
  intro l
  induction l with
  | nil => intro acc h; exact h
  | cons x l ih =>
    intro acc h
    rw [List.foldl_cons]
    exact ih (insertPy x acc) (pairwise_insertPy h)

theorem sortPy_perm (l : List (List Char)) : List.Perm (sortPy l) l := by
  have := sortPy_aux_perm l []
  simpa [sortPy] using this

theorem sortPy_pairwise (l : List (List Char)) :
    (sortPy l).Pairwise (fun a b => pyLe a b = true) :=
  sortPy_aux_pairwise l [] List.Pairwise.nil

/-- Comparison `pyLe` is exactly Lean's (and Python's) lexicographic string order. -/
theorem pyLe_iff_not_lt : ∀ a b : List Char, pyLe a b = true ↔ ¬ List.lt b a := by
  intro a
  induction a with
  | nil =>
    intro b
    constructor
    · intro _ hlt
      cases hlt
    · intro _
      rfl
  | cons x xs ih =>
    intro b
    cases b with
    | nil =>
      constructor
      · intro h
        simp [pyLe] at h
      · intro h
        exact absurd (List.lt.nil x xs) h
    | cons y ys =>
      simp only [pyLe]
      by_cases hxy : x < y
      · rw [if_pos hxy]
        constructor
        · intro _ hlt
          cases hlt with
          | head _ _ h1 => exact absurd hxy (lt_asymm h1)
          | tail h1 h2 h3 => exact absurd hxy h2
        · intro _
          rfl
      · rw [if_neg hxy]
        by_cases hyx : y < x
        · rw [if_pos hyx]
          constructor
          · intro h
            cases h
          · intro h
            exact absurd (List.lt.head ys xs hyx) h
        · rw [if_neg hyx]
          constructor
          · intro h hlt
            cases hlt with
            | head _ _ h1 => exact absurd h1 hyx
            | tail h1 h2 h3 => exact absurd h3 ((ih ys).mp h)
          · intro h
            apply (ih ys).mpr
            intro h3
            exact h (List.lt.tail hyx hxy h3)

/-- Bridge to `String`'s order: `pyLe` on the character lists is exactly
`≤` on the packaged strings. -/
theorem pyLe_iff_le (a b : String) : pyLe a.toList b.toList = true ↔ a ≤ b := by
  rw [String.le_iff_toList_le, ← not_lt]
  have hlex : (b.toList < a.toList) ↔ List.lt b.toList a.toList := by
    rw [List.lt_iff_lex_lt]
    exact Iff.rfl
  rw [pyLe_iff_not_lt]
  exact not_congr hlex.symm

/-! ## Deconstructing the extraction result -/

/-- The `cleaned` list of the source, for a given input string. -/
def cleanedOf (s : String) : List (List Char) := cleanTokens [] (matchesOf s.toList)

/-- The normalized candidate list before deduplication, in scan order. -/
def normCandidatesOf (s : String) : List (List Char) := normTokens (matchesOf s.toList)

/-- Every cleaned token is a well-shaped verbatim substring of the input
whose class part contains a letter, untouched by all three normalization
steps. -/
theorem cleanedOf_spec {s : String} {t : List Char} (h : t ∈ cleanedOf s) :
    TokShape t ∧ t <:+: s.toList ∧
    (∃ r, afterSlash? t = some r ∧ r.any (fun c => Char.isAlpha c) = true) ∧
    t ∈ normCandidatesOf s ∧ stripWs t = t ∧ rstripPunct t = t ∧ stripPid t = t := by
  have hn : t ∈ normCandidatesOf s := dedupLow_subset h
  obtain ⟨m, hm, ht, _, _, r, har, hal⟩ := normTokens_mem hn
  obtain ⟨hshape, hinf⟩ := matchesOf_spec hm
  obtain ⟨hws, hpu, hpid⟩ := tokShape_norm_id hshape
  rw [hpid, hws] at ht
  subst ht
  exact ⟨hshape, hinf, ⟨r, har, hal⟩, hn, hws, hpu, hpid⟩

/-- Structure of an entry of the result mapping. -/
theorem extract_elem {s pkg : String} {toks : List String}
    (h : (pkg, toks) ∈ extract_components_from_text s) :
    ∃ p ts, pkg = String.mk p ∧ toks = (sortPy ts).map String.mk ∧
      ts.Sublist (cleanedOf s) ∧ ∀ t ∈ ts, beforeSlash t = p := by
  unfold extract_components_from_text extractCore at h
  by_cases he : s.toList.isEmpty
  · rw [if_pos he] at h
    simp at h
  · rw [if_neg he] at h
    rw [List.mem_map] at h
    obtain ⟨e, he2, heq⟩ := h
    unfold sortStep at he2
    rw [List.mem_map] at he2
    obtain ⟨e2, he3, heq2⟩ := he2
    obtain ⟨p, ts⟩ := e2
    obtain ⟨hsub, hkeys⟩ := groupByPkg_spec he3
    subst heq2
    rw [Prod.mk.injEq] at heq
    obtain ⟨h1, h2⟩ := heq
    exact ⟨p, ts, h1.symm, h2.symm, hsub, hkeys⟩

/-- Structure of a token of the result mapping. -/
theorem extract_tok {s pkg tok : String} {toks : List String}
    (h1 : (pkg, toks) ∈ extract_components_from_text s) (h2 : tok ∈ toks) :
    ∃ t, tok = String.mk t ∧ t ∈ cleanedOf s ∧ pkg = String.mk (beforeSlash t) := by
  obtain ⟨p, ts, hpkg, htoks, hsub, hkeys⟩ := extract_elem h1
  rw [htoks, List.mem_map] at h2
  obtain ⟨t, hts, htok⟩ := h2
  have htmem : t ∈ ts := (sortPy_perm ts).mem_iff.mp hts
  refine ⟨t, htok.symm, hsub.subset htmem, ?_⟩
  rw [hpkg, hkeys t htmem]

/-! ## The claims -/

/-- C1: for an absent input, an empty input, or any input containing no `/`
character (hence no `/`-bearing substring), `extract_components_from_text`
returns an empty mapping. -/
theorem claim_C1 :
    extract_components_from_text_opt none = [] ∧
    ∀ s : String, ('/' : Char) ∉ s.toList → extract_components_from_text s = [] := by
  refine ⟨rfl, ?_⟩
  intro s hs
  unfold extract_components_from_text extractCore
  by_cases he : s.toList.isEmpty
  · rw [if_pos he]
    rfl
  · rw [if_neg he]
    have hm : matchesOf s.toList = [] := by
      rw [List.eq_nil_iff_forall_not_mem]
      intro t ht
      obtain ⟨hshape, hinf⟩ := matchesOf_spec ht
      obtain ⟨u, v, heq, _, _, _, _⟩ := hshape
      apply hs
      apply hinf.subset
      rw [heq]
      simp
    rw [hm]
    rfl

theorem claim_C1_witness : extract_components_from_text "46: permission" = [] :=
  claim_C1.2 "46: permission" (by decide)

/-- C2: `extract_components_from_text` is total: the translation that keeps
the one fallible operation of the cleanup loop (`tok.split('/', 1)[1]`) in
`Except` never reaches its error branch and agrees with the total function
on every input, however malformed. -/
theorem claim_C2 (s : String) :
    extract_components_from_textE s = Except.ok (extract_components_from_text s) := by
  unfold extract_components_from_textE extract_components_from_text extractCoreE extractCore
  by_cases he : s.toList.isEmpty
  · rw [if_pos he, if_pos he]
    rfl
  · rw [if_neg he, if_neg he, cleanTokensE_ok]
    rfl

/-- C3: every token of the result contains exactly one `/`, and the part to
the right of that `/` is non-empty and contains at least one letter. -/
theorem claim_C3 (s pkg : String) (toks : List String) (tok : String)
    (h1 : (pkg, toks) ∈ extract_components_from_text s) (h2 : tok ∈ toks) :
    tok.toList.count '/' = 1 ∧
    ∃ r, afterSlash? tok.toList = some r ∧ r ≠ [] ∧
      r.any (fun c => Char.isAlpha c) = true := by
  obtain ⟨t, htok, hmem, _⟩ := extract_tok h1 h2
  obtain ⟨hshape, _, ⟨r, har, hal⟩, _⟩ := cleanedOf_spec hmem
  subst htok
  refine ⟨tokShape_count hshape, r, har, ?_, hal⟩
  intro hr
  subst hr
  simp at hal

theorem claim_C3_witness :
    "a.b/C".toList.count '/' = 1 ∧
    ∃ r, afterSlash? "a.b/C".toList = some r ∧ r ≠ [] ∧
      r.any (fun c => Char.isAlpha c) = true :=
  claim_C3 "a.b/C" "a.b" ["a.b/C"] "a.b/C" (by decide) (by decide)

/-- C4: no two tokens of one package's list are equal case-insensitively,
and each kept token is the first-seen casing: it is the first normalized
candidate, in scan order, with its lowercase key. -/
theorem claim_C4 (s pkg : String) (toks : List String)
    (h : (pkg, toks) ∈ extract_components_from_text s) :
    toks.Pairwise (fun a b => lowerStr a.toList ≠ lowerStr b.toList) ∧
    ∀ tok ∈ toks,
      (normCandidatesOf s).find? (fun u => lowerStr u == lowerStr tok.toList) =
        some tok.toList := by
  obtain ⟨p, ts, hpkg, htoks, hsub, hkeys⟩ := extract_elem h
  constructor
  · rw [htoks, List.pairwise_map]
    have hcdup : (cleanedOf s).Pairwise (fun a b => lowerStr a ≠ lowerStr b) :=
      dedupLow_pairwise _ _
    have hts : ts.Pairwise (fun a b => lowerStr a ≠ lowerStr b) := hcdup.sublist hsub
    exact ((sortPy_perm ts).pairwise_iff (fun h e => h e.symm)).mpr hts
  · intro tok htokmem
    obtain ⟨t, htok, hmem, _⟩ := extract_tok h htokmem
    obtain ⟨_, hfind⟩ := dedupLow_fresh _ _ _ hmem
    subst htok
    exact hfind

theorem claim_C4_witness :
    (["a.b/C"] : List String).Pairwise (fun a b => lowerStr a.toList ≠ lowerStr b.toList) ∧
    ∀ tok ∈ (["a.b/C"] : List String),
      (normCandidatesOf "a.b/C A.B/c").find?
          (fun u => lowerStr u == lowerStr tok.toList) = some tok.toList :=
  claim_C4 "a.b/C A.B/c" "a.b" ["a.b/C"] (by decide)

/-- C5: each package's component list is sorted in ordinary case-sensitive
lexicographic string order. -/
theorem claim_C5 (s pkg : String) (toks : List String)
    (h : (pkg, toks) ∈ extract_components_from_text s) :
    toks.Pairwise (fun a b => a ≤ b) := by
  obtain ⟨p, ts, hpkg, htoks, hsub, hkeys⟩ := extract_elem h
  rw [htoks, List.pairwise_map]
  refine (sortPy_pairwise ts).imp ?_
  intro a b hab
  exact (pyLe_iff_le (String.mk a) (String.mk b)).mp hab

theorem claim_C5_witness :
    (["com.example/.MyService", "com.example/.Outer$Inner"] : List String).Pairwise
      (fun a b => a ≤ b) :=
  claim_C5
    "ComponentInfo\x7bcom.example/.MyService\x7d ServiceRecord\x7b... com.example/.Outer$Inner ...\x7d"
    "com.example" ["com.example/.MyService", "com.example/.Outer$Inner"] (by decide)

/-- C6: every token filed under a package key starts with that key followed
by `/`; the key is exactly the part of the token left of its first `/`. -/
theorem claim_C6 (s pkg : String) (toks : List String) (tok : String)
    (h1 : (pkg, toks) ∈ extract_components_from_text s) (h2 : tok ∈ toks) :
    beforeSlash tok.toList = pkg.toList ∧
    ∃ rest, tok.toList = pkg.toList ++ '/' :: rest := by
  obtain ⟨t, htok, hmem, hpkg⟩ := extract_tok h1 h2
  obtain ⟨hshape, _⟩ := cleanedOf_spec hmem
  obtain ⟨u, v, heq, hune, hvne, hu, hv⟩ := hshape
  have hbs : beforeSlash t = u := tokShape_beforeSlash heq hu
  subst htok
  rw [hpkg]
  constructor
  · rfl
  · refine ⟨v, ?_⟩
    show t = beforeSlash t ++ '/' :: v
    rw [hbs]
    exact heq

theorem claim_C6_witness :
    beforeSlash "a.b/C".toList = "a.b".toList ∧
    ∃ rest, "a.b/C".toList = "a.b".toList ++ '/' :: rest :=
  claim_C6 "a.b/C" "a.b" ["a.b/C"] "a.b/C" (by decide) (by decide)

/-- C7: on an input containing both a `ComponentInfo{...}` and a
`ServiceRecord{...}` wrapper, the `com.example` entry covers both the plain
and the `$`-nested class names. -/
theorem claim_C7 :
    ∃ toks,
      ("com.example", toks) ∈ extract_components_from_text
        "ComponentInfo\x7bcom.example/.MyService\x7d ServiceRecord\x7b... com.example/.Outer$Inner ...\x7d" ∧
      (∃ c1 ∈ toks, "MyService".toList <:+: c1.toList) ∧
      (∃ c2 ∈ toks, "Outer$Inner".toList <:+: c2.toList) := by
  refine ⟨["com.example/.MyService", "com.example/.Outer$Inner"], ?_,
    ⟨"com.example/.MyService", ?_, ?_⟩, ⟨"com.example/.Outer$Inner", ?_, ?_⟩⟩ <;> decide

/-- C8: on `"com.foo.bar/.LocalService u0a123"`, a token starting with
`com.foo.bar/` is extracted and the trailing `u0a123` annotation is not
part of it. -/
theorem claim_C8 :
    ∃ pkg toks tok,
      (pkg, toks) ∈ extract_components_from_text "com.foo.bar/.LocalService u0a123" ∧
      tok ∈ toks ∧ "com.foo.bar/".toList <+: tok.toList ∧
      ¬ ("u0a123".toList <:+: tok.toList) := by
  refine ⟨"com.foo.bar", ["com.foo.bar/.LocalService"], "com.foo.bar/.LocalService",
    ?_, ?_, ?_, ?_⟩ <;> decide

/-- C9: the extractor is deterministic: it is a pure function of its input,
also through the `Except`-modelled effects, so equal inputs give equal
mappings with equal key sets and orderings. -/
theorem claim_C9 (s1 s2 : String) (h : s1 = s2) :
    extract_components_from_text s1 = extract_components_from_text s2 ∧
    extract_components_from_textE s1 = extract_components_from_textE s2 := by
  subst h
  exact ⟨rfl, rfl⟩

theorem claim_C9_witness :
    extract_components_from_text "a.b/C" = extract_components_from_text "a.b/C" ∧
    extract_components_from_textE "a.b/C" = extract_components_from_textE "a.b/C" :=
  claim_C9 "a.b/C" "a.b/C" rfl

/-- C10: every token of the result occurs verbatim as a contiguous
substring of the input text, and none of the three normalization steps
(strip, `rstrip(';,)')`, trailing `:<digits>` removal) alters it. -/
theorem claim_C10 (s pkg : String) (toks : List String) (tok : String)
    (h1 : (pkg, toks) ∈ extract_components_from_text s) (h2 : tok ∈ toks) :
    tok.toList <:+: s.toList ∧
    stripWs tok.toList = tok.toList ∧ rstripPunct tok.toList = tok.toList ∧
    stripPid tok.toList = tok.toList := by
  obtain ⟨t, htok, hmem, _⟩ := extract_tok h1 h2
  obtain ⟨_, hinf, _, _, hws, hpu, hpid⟩ := cleanedOf_spec hmem
  subst htok
  exact ⟨hinf, hws, hpu, hpid⟩

theorem claim_C10_witness :
    "com.foo.bar/.LocalService".toList <:+: "com.foo.bar/.LocalService u0a123".toList ∧
    stripWs "com.foo.bar/.LocalService".toList = "com.foo.bar/.LocalService".toList ∧
    rstripPunct "com.foo.bar/.LocalService".toList = "com.foo.bar/.LocalService".toList ∧
    stripPid "com.foo.bar/.LocalService".toList = "com.foo.bar/.LocalService".toList :=
  claim_C10 "com.foo.bar/.LocalService u0a123" "com.foo.bar"
    ["com.foo.bar/.LocalService"] "com.foo.bar/.LocalService" (by decide) (by decide)

end GeloTech
